import Mathlib

/-
Verification development for the asynchronous job-execution / SSE
streaming pipeline of `app.py` (Graph-RAG multi-agent web front end),
together with the `ask_question` and `upload_image` request handlers.

The Python source is shallowly embedded:
  * an SSE message `{'type': ..., 'content': ...}` becomes an `Event`;
  * `SseLogStreamWrapper` (the output capture) becomes a `Capture`
    state (its string buffer) with pure `write`/`flush` functions
    returning the events they put on the queue;
  * the worker `rag_worker` becomes a pure function from the ambient
    console state and the engine's behaviour to the ordered list of
    actions it performs (queue puts and `finish_event.set()` calls)
    plus the final console state;
  * the SSE generator loop becomes a small-step transition system over
    dispatcher states, with the worker's pushes interleaved freely.
Strings are modelled as `List Char`; the external ANSI-to-HTML
converter is an arbitrary function parameter `conv`.
-/

/-- One SSE message, tagged as in the source: `log_html`, `answer`,
`error` or `finished` (`log` carries the HTML content built by the
capture, `answer`/`error` carry plain text, `finished` carries
nothing). -/
inductive Event where
  | log (content : List Char)
  | answer (content : List Char)
  | error (content : List Char)
  | finished
deriving DecidableEq

/-- Python `str.strip()` whitespace test for the ASCII whitespace
characters (space, tab, newline, carriage return, vertical tab,
form feed). -/
def isPyWs (c : Char) : Bool :=
  c = ' ' || c = '\t' || c = '\n' || c = '\r' || c = '\x0b' || c = '\x0c'

/-- Python `s.strip()`: drop whitespace from both ends. -/
def pyStrip (l : List Char) : List Char :=
  ((l.dropWhile isPyWs).reverse.dropWhile isPyWs).reverse

/-- The apostrophe character used in the source's HTML wrapper. -/
def quoteChar : Char := Char.ofNat 39

/-- The wrapper the source puts around each converted log line:
`<div class='log-item'>...</div>`. -/
def wrapLog (s : List Char) : List Char :=
  "<div class=".toList ++ [quoteChar] ++ "log-item".toList ++ [quoteChar]
    ++ ">".toList ++ s ++ "</div>".toList

/-- One iteration's event emission for an extracted line
(`SseLogStreamWrapper.write`, the body of the `while True` loop):
`if line_to_process.strip(): ... queue.put(log_html with converted
stripped line)`, so a blank line emits nothing. -/
def lineEvents (conv : List Char → List Char) (line : List Char) : List Event :=
  if pyStrip line = [] then [] else [Event.log (wrapLog (conv (pyStrip line)))]

/-- `self.buffer.index('\n')` as a splitter: the first complete line
(terminator included) and the remainder, or `none` when the buffer
holds no newline. -/
def splitFirstNL : List Char → Option (List Char × List Char)
  | [] => none
  | c :: cs =>
    if c = '\n' then some ([c], cs)
    else
      match splitFirstNL cs with
      | none => none
      | some p => some (c :: p.1, p.2)

/-- The line-extraction loop of `SseLogStreamWrapper.write`, with an
explicit iteration bound (each extracted line removes at least one
character, so `buf.length` iterations always suffice): repeatedly
split off the first complete line, emitting `lineEvents` for it, until
no newline remains; returns the emitted events in order and the
remaining buffer. -/
def processBufferF (conv : List Char → List Char) : Nat → List Char → List Event × List Char
  | 0, buf => ([], buf)
  | fuel + 1, buf =>
    match splitFirstNL buf with
    | none => ([], buf)
    | some p =>
      let r := processBufferF conv fuel p.2
      (lineEvents conv p.1 ++ r.1, r.2)

/-- The line-extraction loop run to completion. -/
def processBuffer (conv : List Char → List Char) (buf : List Char) : List Event × List Char :=
  processBufferF conv buf.length buf

/-- State of one `SseLogStreamWrapper`: its string buffer. -/
structure Capture where
  buffer : List Char
deriving DecidableEq

/-- `SseLogStreamWrapper.write(s)`: append `s` to the buffer, then run
the line-extraction loop; the returned byte count is irrelevant to the
claims and omitted. -/
def Capture.write (conv : List Char → List Char) (st : Capture) (s : List Char) :
    List Event × Capture :=
  ((processBuffer conv (st.buffer ++ s)).1, ⟨(processBuffer conv (st.buffer ++ s)).2⟩)

/-- `SseLogStreamWrapper.flush()`: if the buffer strips to something
non-empty, emit one converted `log` event and clear the buffer;
otherwise do nothing (the buffer is cleared only inside the `if`). -/
def Capture.flush (conv : List Char → List Char) (st : Capture) :
    List Event × Capture :=
  if pyStrip st.buffer = [] then ([], st)
  else ([Event.log (wrapLog (conv (pyStrip st.buffer)))], ⟨[]⟩)

/-- A sequence of `write` calls, concatenating the emitted events. -/
def writeMany (conv : List Char → List Char) (st : Capture) :
    List (List Char) → List Event × Capture
  | [] => ([], st)
  | s :: ss =>
    let r1 := Capture.write conv st s
    let r2 := writeMany conv r1.2 ss
    (r1.1 ++ r2.1, r2.2)

/-- All complete (newline-terminated) lines of a buffer, in order,
plus the unterminated remainder; the measuring device for "line
terminators consumed". -/
def completeLines : List Char → List (List Char) × List Char
  | [] => ([], [])
  | c :: cs =>
    let r := completeLines cs
    if c = '\n' then ([c] :: r.1, r.2)
    else
      match r.1 with
      | [] => ([], c :: r.2)
      | l :: ls => ((c :: l) :: ls, r.2)

/-! ### Basic facts about the line splitter -/

theorem splitFirstNL_rest_lt : ∀ (buf : List Char) (p : List Char × List Char),
    splitFirstNL buf = some p → p.2.length < buf.length := by
  intro buf
  induction buf with
  | nil => intro p h; exact Option.noConfusion h
  | cons c cs ih =>
    intro p h
    by_cases hc : c = '\n'
    · simp only [splitFirstNL, if_pos hc] at h
      injection h with h'
      subst h'
      show cs.length < (c :: cs).length
      simp
    · simp only [splitFirstNL, if_neg hc] at h
      cases hs : splitFirstNL cs with
      | none => rw [hs] at h; exact Option.noConfusion h
      | some q =>
        rw [hs] at h
        injection h with h'
        subst h'
        show q.2.length < (c :: cs).length
        have := ih q hs
        simp only [List.length_cons]
        omega

theorem splitFirstNL_append : ∀ (buf : List Char) (p : List Char × List Char) (s : List Char),
    splitFirstNL buf = some p → splitFirstNL (buf ++ s) = some (p.1, p.2 ++ s) := by
  intro buf
  induction buf with
  | nil => intro p s h; exact Option.noConfusion h
  | cons c cs ih =>
    intro p s h
    by_cases hc : c = '\n'
    · simp only [splitFirstNL, if_pos hc] at h
      injection h with h'
      subst h'
      simp only [List.cons_append, splitFirstNL, if_pos hc]
      rfl
    · simp only [splitFirstNL, if_neg hc] at h
      cases hs : splitFirstNL cs with
      | none => rw [hs] at h; exact Option.noConfusion h
      | some q =>
        rw [hs] at h
        injection h with h'
        subst h'
        have hstep := ih q s hs
        simp only [List.cons_append, splitFirstNL, if_neg hc, List.append_eq, hstep]

theorem processBufferF_fuel_irrel (conv : List Char → List Char) :
    ∀ (f1 f2 : Nat) (buf : List Char), buf.length ≤ f1 → buf.length ≤ f2 →
      processBufferF conv f1 buf = processBufferF conv f2 buf := by
  intro f1
  induction f1 with
  | zero =>
    intro f2 buf h1 h2
    have hb : buf = [] := List.eq_nil_of_length_eq_zero (Nat.le_zero.mp h1)
    subst hb
    cases f2 with
    | zero => rfl
    | succ m => simp [processBufferF, splitFirstNL]
  | succ n ih =>
    intro f2 buf h1 h2
    cases f2 with
    | zero =>
      have hb : buf = [] := List.eq_nil_of_length_eq_zero (Nat.le_zero.mp h2)
      subst hb
      simp [processBufferF, splitFirstNL]
    | succ m =>
      cases h : splitFirstNL buf with
      | none => simp only [processBufferF, h]
      | some p =>
        have hlt := splitFirstNL_rest_lt buf p h
        simp only [processBufferF, h]
        rw [ih m p.2 (by omega) (by omega)]

theorem processBuffer_eq_none {conv : List Char → List Char} {buf : List Char}
    (h : splitFirstNL buf = none) : processBuffer conv buf = ([], buf) := by
  unfold processBuffer
  cases buf with
  | nil => rfl
  | cons c cs => simp only [List.length_cons, processBufferF, h]

theorem processBuffer_eq_some {conv : List Char → List Char} {buf : List Char}
    {p : List Char × List Char} (h : splitFirstNL buf = some p) :
    processBuffer conv buf =
      (lineEvents conv p.1 ++ (processBuffer conv p.2).1, (processBuffer conv p.2).2) := by
  cases buf with
  | nil => exact Option.noConfusion h
  | cons c cs =>
    have hlt := splitFirstNL_rest_lt _ _ h
    unfold processBuffer
    simp only [List.length_cons, processBufferF, h]
    rw [processBufferF_fuel_irrel conv cs.length p.2.length p.2
      (by simp only [List.length_cons] at hlt; omega) le_rfl]

/-- Recursion principle following the structure of the line-extraction
loop: to prove a property of every buffer it suffices to prove it for
newline-free buffers and to propagate it from the tail after removing
the first complete line. -/
theorem pb_rec {P : List Char → Prop}
    (h1 : ∀ buf, splitFirstNL buf = none → P buf)
    (h2 : ∀ buf p, splitFirstNL buf = some p → P p.2 → P buf) :
    ∀ buf, P buf := by
  have main : ∀ (n : Nat) (buf : List Char), buf.length ≤ n → P buf := by
    intro n
    induction n with
    | zero =>
      intro buf hb
      have : buf = [] := List.eq_nil_of_length_eq_zero (Nat.le_zero.mp hb)
      subst this
      exact h1 [] rfl
    | succ n ih =>
      intro buf hb
      cases h : splitFirstNL buf with
      | none => exact h1 buf h
      | some p =>
        have hlt := splitFirstNL_rest_lt buf p h
        exact h2 buf p h (ih p.2 (by omega))
  exact fun buf => main buf.length buf le_rfl

/-- The buffer left behind by the extraction loop holds no newline. -/
theorem processBuffer_snd_nl (conv : List Char → List Char) :
    ∀ buf, splitFirstNL (processBuffer conv buf).2 = none := by
  apply pb_rec
  · intro buf h
    rw [processBuffer_eq_none h]
    exact h
  · intro buf p h ih
    rw [processBuffer_eq_some h]
    exact ih

/-- Splitting the extraction of `buf ++ s` at the point where `buf`
alone is exhausted: the events for `buf` come first, then the events
of the remainder re-fed with `s`. -/
theorem processBuffer_append (conv : List Char → List Char) (s : List Char) :
    ∀ buf, processBuffer conv (buf ++ s) =
      ((processBuffer conv buf).1
          ++ (processBuffer conv ((processBuffer conv buf).2 ++ s)).1,
        (processBuffer conv ((processBuffer conv buf).2 ++ s)).2) := by
  apply pb_rec
  · intro buf h
    rw [processBuffer_eq_none h]
    simp
  · intro buf p h ih
    rw [processBuffer_eq_some h,
      processBuffer_eq_some (splitFirstNL_append buf p s h), ih]
    simp [List.append_assoc]

/-- A run of `write` calls starting from a newline-free buffer behaves
like one extraction pass over the whole concatenated input. -/
theorem writeMany_eq (conv : List Char → List Char) :
    ∀ (ws : List (List Char)) (st : Capture), splitFirstNL st.buffer = none →
      writeMany conv st ws =
        ((processBuffer conv (st.buffer ++ ws.flatten)).1,
          ⟨(processBuffer conv (st.buffer ++ ws.flatten)).2⟩) := by
  intro ws
  induction ws with
  | nil =>
    intro st h
    simp only [writeMany, List.flatten, List.append_nil]
    rw [processBuffer_eq_none h]
  | cons s ss ih =>
    intro st h
    have h1 : splitFirstNL (processBuffer conv (st.buffer ++ s)).2 = none :=
      processBuffer_snd_nl conv (st.buffer ++ s)
    simp only [writeMany, Capture.write]
    rw [ih ⟨(processBuffer conv (st.buffer ++ s)).2⟩ h1]
    simp only [List.flatten]
    rw [← List.append_assoc, processBuffer_append conv ss.flatten (st.buffer ++ s)]

theorem completeLines_eq_none : ∀ {buf : List Char}, splitFirstNL buf = none →
    completeLines buf = ([], buf) := by
  intro buf
  induction buf with
  | nil => intro _; rfl
  | cons c cs ih =>
    intro h
    by_cases hc : c = '\n'
    · simp only [splitFirstNL, if_pos hc] at h
      exact Option.noConfusion h
    · simp only [splitFirstNL, if_neg hc] at h
      cases hs : splitFirstNL cs with
      | none =>
        have := ih hs
        simp only [completeLines, if_neg hc, this]
      | some q => rw [hs] at h; exact Option.noConfusion h

theorem completeLines_eq_some : ∀ {buf : List Char} {p : List Char × List Char},
    splitFirstNL buf = some p →
    completeLines buf = (p.1 :: (completeLines p.2).1, (completeLines p.2).2) := by
  intro buf
  induction buf with
  | nil => intro p h; exact Option.noConfusion h
  | cons c cs ih =>
    intro p h
    by_cases hc : c = '\n'
    · simp only [splitFirstNL, if_pos hc] at h
      injection h with h'
      subst h'
      simp only [completeLines, if_pos hc]
    · simp only [splitFirstNL, if_neg hc] at h
      cases hs : splitFirstNL cs with
      | none => rw [hs] at h; exact Option.noConfusion h
      | some q =>
        rw [hs] at h
        injection h with h'
        subst h'
        have := ih hs
        simp only [completeLines, if_neg hc, this]

/-- The extraction loop emits exactly the per-line events of the
complete lines, and leaves the unterminated remainder. -/
theorem processBuffer_lines (conv : List Char → List Char) :
    ∀ buf, (processBuffer conv buf).1 = ((completeLines buf).1.map (lineEvents conv)).flatten
      ∧ (processBuffer conv buf).2 = (completeLines buf).2 := by
  apply pb_rec
  · intro buf h
    rw [processBuffer_eq_none h, completeLines_eq_none h]
    simp
  · intro buf p h ih
    rw [processBuffer_eq_some h, completeLines_eq_some h]
    simp only [List.map_cons, List.flatten]
    exact ⟨by rw [ih.1], ih.2⟩

/-- Every event the extraction loop emits is a `log` event. -/
theorem processBuffer_all_log (conv : List Char → List Char) :
    ∀ buf, ∀ e ∈ (processBuffer conv buf).1, ∃ s, e = Event.log s := by
  apply pb_rec
  · intro buf h e he
    rw [processBuffer_eq_none h] at he
    exact absurd he (List.not_mem_nil e)
  · intro buf p h ih e he
    rw [processBuffer_eq_some h] at he
    rcases List.mem_append.mp he with hl | hr
    · unfold lineEvents at hl
      by_cases hb : pyStrip p.1 = []
      · rw [if_pos hb] at hl
        exact absurd hl (List.not_mem_nil e)
      · rw [if_neg hb] at hl
        rcases List.mem_singleton.mp hl with h'
        exact ⟨_, h'⟩
    · exact ih e hr

theorem flatten_lineEvents_length (conv : List Char → List Char) (ls : List (List Char)) :
    ((ls.map (lineEvents conv)).flatten).length
      = ls.countP (fun l => !(pyStrip l).isEmpty) := by
  induction ls with
  | nil => rfl
  | cons l ls ih =>
    simp only [List.map_cons, List.flatten, List.length_append, ih, List.countP_cons]
    by_cases hb : pyStrip l = []
    · simp [lineEvents, hb]
    · simp only [lineEvents, if_neg hb, List.length_singleton, List.isEmpty_iff, hb]
      simp [List.isEmpty_iff, hb]
      omega

/-! ### The worker `rag_worker` -/

/-- One observable action of the worker thread, in program order:
a `q.put(...)` of an event, or a `finish_event.set()`. -/
inductive WAction where
  | push (e : Event)
  | setSignal
deriving DecidableEq

/-- The event carried by an action, if it is a put. -/
def actEvent : WAction → Option Event
  | .push e => some e
  | .setSignal => none

/-- The events a trace of worker actions puts on the queue, in order. -/
def pushedEvents (tr : List WAction) : List Event := tr.filterMap actEvent

/-- A Python value held by the shared `q_a.console.file` slot: `None`,
some external sink object (indexed), or this job's capture wrapper.
`pynone` matters because the worker uses `None` as the
"nothing saved" sentinel (`original_q_a_console_file is not None`). -/
inductive PyVal where
  | pynone
  | sink (n : Nat)
  | wrapper
deriving DecidableEq

/-- Ambient state of the engine's shared console before/after a job.
`q_a` itself is not part of the sources; per the spec its output sink
is an arbitrary shared mutable binding, so the slot ranges over all
Python values, and the object or the attribute may also be missing
(`hasattr` checks in the worker). -/
inductive ConsoleState where
  | absent
  | noFile
  | withFile (v : PyVal)
deriving DecidableEq

/-- Behaviour of the external engine call for one job (spec §6
collaborator contract): the chunks it writes to the redirected output
sink, and either a returned answer text or a raised failure with a
message (`str(e)`). A failure anywhere inside the `try` block —
`Neo4jRAGSystem(...)` construction included — is the `failure` case. -/
inductive EngineOutcome where
  | success (chunks : List (List Char)) (answer : List Char)
  | failure (chunks : List (List Char)) (msg : List Char)

/-- Error text pushed when `q_a.console` is missing. -/
def errNoConsole : List Char := "Internal error: q_a.console not found.".toList

/-- Text prefixed to `str(e)` in the worker's `except` branch. -/
def errHead : List Char := "An error occurred: ".toList

/-- All events the job's capture wrapper emits: the `write` events for
the chunks the engine produced (in order), then whatever the final
explicit `flush()` emits. -/
def captureEvents (conv : List Char → List Char) (chunks : List (List Char)) : List Event :=
  (writeMany conv ⟨[]⟩ chunks).1 ++ (Capture.flush conv (writeMany conv ⟨[]⟩ chunks).2).1

/-- Queue actions of the engine-call section of `rag_worker`: on
success the capture events then the `answer` put (the source flushes
before `q.put({'type': 'answer', ...})`); on failure the capture
events (writes before the raise, then the guarded `flush()` in the
`except` branch) then the `error` put. -/
def engineActions (conv : List Char → List Char) (oc : EngineOutcome) : List WAction :=
  match oc with
  | .success chunks ans =>
      (captureEvents conv chunks).map WAction.push ++ [WAction.push (Event.answer ans)]
  | .failure chunks msg =>
      (captureEvents conv chunks).map WAction.push
        ++ [WAction.push (Event.error (errHead ++ msg))]

/-- `rag_worker(q, ..., finish_event)` as a pure function from the
ambient console state and the engine behaviour to its ordered action
trace and the final console state.

* `absent`: the `hasattr(q_a, 'console')` guard fails; the worker puts
  an `error`, calls `finish_event.set()` and returns; the `finally`
  block still runs (no restore because `hasattr` fails), calling
  `set()` a second time and putting `finished`.
* otherwise the worker saves `q_a.console.file` into a local that was
  initialised to `None` — the save is skipped when the `file`
  attribute is missing (`noFile`), and saves `None` itself when the
  slot holds `None` — patches the slot to the wrapper, runs the
  engine, and in `finally` restores the saved value only when it
  `is not None`, then calls `set()` and puts `finished`. -/
def rag_worker (conv : List Char → List Char) (cs : ConsoleState) (oc : EngineOutcome) :
    List WAction × ConsoleState :=
  match cs with
  | .absent =>
      ([WAction.push (Event.error errNoConsole), WAction.setSignal,
        WAction.setSignal, WAction.push Event.finished], .absent)
  | .noFile =>
      (engineActions conv oc ++ [WAction.setSignal, WAction.push Event.finished],
        .withFile .wrapper)
  | .withFile v =>
      (engineActions conv oc ++ [WAction.setSignal, WAction.push Event.finished],
        if v = PyVal.pynone then .withFile .wrapper else .withFile v)

/-- The identity stand-in for the external ANSI-to-HTML converter,
used to evaluate the model at concrete inputs. -/
def convId : List Char → List Char := fun s => s

theorem pushedEvents_append (xs ys : List WAction) :
    pushedEvents (xs ++ ys) = pushedEvents xs ++ pushedEvents ys :=
  List.filterMap_append xs ys actEvent

theorem pushedEvents_map_push (evs : List Event) :
    pushedEvents (evs.map WAction.push) = evs := by
  induction evs with
  | nil => rfl
  | cons e es ih =>
    simp only [List.map_cons, pushedEvents, List.filterMap_cons, actEvent]
    simpa [pushedEvents] using ih

/-- Every event the capture (writes plus final flush) emits is a `log`
event. -/
theorem captureEvents_log (conv : List Char → List Char) (chunks : List (List Char)) :
    ∀ e ∈ captureEvents conv chunks, ∃ s, e = Event.log s := by
  intro e he
  unfold captureEvents at he
  rcases List.mem_append.mp he with h | h
  · rw [writeMany_eq conv chunks ⟨[]⟩ rfl] at h
    exact processBuffer_all_log conv ([] ++ chunks.flatten) e h
  · unfold Capture.flush at h
    by_cases hb : pyStrip (writeMany conv ⟨[]⟩ chunks).2.buffer = []
    · rw [if_pos hb] at h
      exact absurd h (List.not_mem_nil e)
    · rw [if_neg hb] at h
      exact ⟨_, List.mem_singleton.mp h⟩

/-- The engine-call section never puts a `finished` event. -/
theorem engineActions_no_finished (conv : List Char → List Char) (oc : EngineOutcome) :
    Event.finished ∉ pushedEvents (engineActions conv oc) := by
  cases oc with
  | success chunks ans =>
    simp only [engineActions, pushedEvents_append, pushedEvents_map_push]
    intro h
    rcases List.mem_append.mp h with h | h
    · rcases captureEvents_log conv chunks _ h with ⟨s, hs⟩
      exact Event.noConfusion hs
    · simp [pushedEvents, List.filterMap, actEvent] at h
  | failure chunks msg =>
    simp only [engineActions, pushedEvents_append, pushedEvents_map_push]
    intro h
    rcases List.mem_append.mp h with h | h
    · rcases captureEvents_log conv chunks _ h with ⟨s, hs⟩
      exact Event.noConfusion hs
    · simp [pushedEvents, List.filterMap, actEvent] at h

theorem pushedEvents_engine_frame (conv : List Char → List Char) (oc : EngineOutcome) :
    pushedEvents (engineActions conv oc ++ [WAction.setSignal, WAction.push Event.finished])
      = pushedEvents (engineActions conv oc) ++ [Event.finished] := by
  rw [pushedEvents_append]
  rfl

theorem pushedEvents_engine_success (conv : List Char → List Char)
    (chunks : List (List Char)) (ans : List Char) :
    pushedEvents (engineActions conv (EngineOutcome.success chunks ans))
      = captureEvents conv chunks ++ [Event.answer ans] := by
  simp only [engineActions, pushedEvents_append, pushedEvents_map_push]
  rfl

theorem pushedEvents_engine_failure (conv : List Char → List Char)
    (chunks : List (List Char)) (msg : List Char) :
    pushedEvents (engineActions conv (EngineOutcome.failure chunks msg))
      = captureEvents conv chunks ++ [Event.error (errHead ++ msg)] := by
  simp only [engineActions, pushedEvents_append, pushedEvents_map_push]
  rfl

/-- C1: for every job execution of the worker — engine success, engine
failure, or redirection-setup failure (`q_a.console` absent) — exactly
one `finished` event is put on the job's queue, and it is the
chronologically last event the worker puts: the pushed sequence always
decomposes as a `finished`-free prefix followed by one `finished`. -/
theorem c1_finished_once_and_last (conv : List Char → List Char) (cs : ConsoleState)
    (oc : EngineOutcome) :
    ∃ pre, pushedEvents (rag_worker conv cs oc).1 = pre ++ [Event.finished]
      ∧ Event.finished ∉ pre := by
  cases cs with
  | absent =>
    refine ⟨[Event.error errNoConsole], rfl, ?_⟩
    simp
  | noFile =>
    refine ⟨pushedEvents (engineActions conv oc), ?_, engineActions_no_finished conv oc⟩
    simp only [rag_worker]
    exact pushedEvents_engine_frame conv oc
  | withFile v =>
    refine ⟨pushedEvents (engineActions conv oc), ?_, engineActions_no_finished conv oc⟩
    simp only [rag_worker]
    exact pushedEvents_engine_frame conv oc

/-- C2: evaluation of the worker at a concrete input (console present
with a saved sink, engine returns `"a"` with no progress output),
exhibiting that `finish_event.set()` (the `setSignal` action) occurs
strictly before the `finished` event is put on the queue: the trace is
`[put answer, set, put finished]`, so a `setSignal` is preceded by no
`finished` put, contradicting "the signal is set only after the
`finished` event is in the channel". -/
theorem c2_signal_set_before_finished_push :
    ∃ pre suf,
      (rag_worker convId (ConsoleState.withFile (PyVal.sink 1))
          (EngineOutcome.success [] ['a'])).1
        = pre ++ WAction.setSignal :: suf
      ∧ WAction.push Event.finished ∉ pre
      ∧ WAction.push Event.finished ∈ suf :=
  ⟨[WAction.push (Event.answer ['a'])], [WAction.push Event.finished],
    by decide, by decide, by decide⟩

/-- C3: a job whose engine call returns normally (console present, so
the engine is actually invoked) puts exactly the capture's `log`
events (all writes, then the pre-answer `flush()`), then one `answer`
event carrying the engine's returned text, then `finished`, in that
order. -/
theorem c3_success_sequence (conv : List Char → List Char) (cs : ConsoleState)
    (chunks : List (List Char)) (ans : List Char) (h : cs ≠ ConsoleState.absent) :
    pushedEvents (rag_worker conv cs (EngineOutcome.success chunks ans)).1
      = captureEvents conv chunks ++ [Event.answer ans, Event.finished]
    ∧ ∀ e ∈ captureEvents conv chunks, ∃ s, e = Event.log s := by
  refine ⟨?_, captureEvents_log conv chunks⟩
  cases cs with
  | absent => exact absurd rfl h
  | noFile =>
    simp only [rag_worker, pushedEvents_engine_frame, pushedEvents_engine_success,
      List.append_assoc]
    rfl
  | withFile v =>
    simp only [rag_worker, pushedEvents_engine_frame, pushedEvents_engine_success,
      List.append_assoc]
    rfl

/-- Witness for C3 at a concrete input: a present console, one written
chunk `"hi\n"`, answer `"X"`. -/
theorem c3_success_sequence_witness :
    (ConsoleState.withFile (PyVal.sink 0) ≠ ConsoleState.absent)
    ∧ (pushedEvents (rag_worker convId (ConsoleState.withFile (PyVal.sink 0))
          (EngineOutcome.success [['h', 'i', '\n']] ['X'])).1
        = captureEvents convId [['h', 'i', '\n']] ++ [Event.answer ['X'], Event.finished]
      ∧ ∀ e ∈ captureEvents convId [['h', 'i', '\n']], ∃ s, e = Event.log s) :=
  ⟨by decide, c3_success_sequence convId _ _ _ (by decide)⟩

/-- C4: a job whose engine call raises (console present) propagates
nothing: the worker puts exactly the capture's `log` events (writes
before the failure, then the guarded `flush()`), then one `error`
event carrying `"An error occurred: "` plus the failure text, then
`finished`; no `answer` event is ever put. -/
theorem c4_failure_sequence (conv : List Char → List Char) (cs : ConsoleState)
    (chunks : List (List Char)) (msg : List Char) (h : cs ≠ ConsoleState.absent) :
    pushedEvents (rag_worker conv cs (EngineOutcome.failure chunks msg)).1
      = captureEvents conv chunks ++ [Event.error (errHead ++ msg), Event.finished]
    ∧ (∀ e ∈ captureEvents conv chunks, ∃ s, e = Event.log s)
    ∧ ∀ s, Event.answer s
        ∉ pushedEvents (rag_worker conv cs (EngineOutcome.failure chunks msg)).1 := by
  have hmain : pushedEvents (rag_worker conv cs (EngineOutcome.failure chunks msg)).1
      = captureEvents conv chunks ++ [Event.error (errHead ++ msg), Event.finished] := by
    cases cs with
    | absent => exact absurd rfl h
    | noFile =>
      simp only [rag_worker, pushedEvents_engine_frame, pushedEvents_engine_failure,
        List.append_assoc]
      rfl
    | withFile v =>
      simp only [rag_worker, pushedEvents_engine_frame, pushedEvents_engine_failure,
        List.append_assoc]
      rfl
  refine ⟨hmain, captureEvents_log conv chunks, ?_⟩
  intro s hm
  rw [hmain] at hm
  rcases List.mem_append.mp hm with h1 | h2
  · rcases captureEvents_log conv chunks _ h1 with ⟨t, ht⟩
    exact Event.noConfusion ht
  · simp at h2

/-- Witness for C4 at a concrete input: a present console, one written
chunk `"w\n"`, failure text `"db"`. -/
theorem c4_failure_sequence_witness :
    (ConsoleState.withFile (PyVal.sink 0) ≠ ConsoleState.absent)
    ∧ (pushedEvents (rag_worker convId (ConsoleState.withFile (PyVal.sink 0))
          (EngineOutcome.failure [['w', '\n']] ['d', 'b'])).1
        = captureEvents convId [['w', '\n']]
            ++ [Event.error (errHead ++ ['d', 'b']), Event.finished]
      ∧ (∀ e ∈ captureEvents convId [['w', '\n']], ∃ s, e = Event.log s)
      ∧ ∀ s, Event.answer s
          ∉ pushedEvents (rag_worker convId (ConsoleState.withFile (PyVal.sink 0))
              (EngineOutcome.failure [['w', '\n']] ['d', 'b'])).1) :=
  ⟨by decide, c4_failure_sequence convId _ _ _ (by decide)⟩

/-- C5 counterexample: when the shared slot `q_a.console.file` holds
Python `None` before the call, the worker's saved copy collides with
the `None` "nothing saved" sentinel, the `finally` restore is skipped,
and the wrapper stays bound after exit — the post-call binding differs
from the pre-call one, refuting "restored on every path" as stated. -/
theorem c5_counterexample :
    (rag_worker convId (ConsoleState.withFile PyVal.pynone)
        (EngineOutcome.success [] ['a'])).2
      ≠ ConsoleState.withFile PyVal.pynone := by
  decide

/-- C5 (amended): the engine's shared output-sink binding equals its
pre-call value after the worker exits, on success and on failure and
on the setup-failure path where the console object is absent, provided
the pre-call `file` binding is not Python `None` (whose collision with
the worker's `None` sentinel skips the restore). -/
theorem c5_console_restored (conv : List Char → List Char) (oc : EngineOutcome)
    (cs : ConsoleState)
    (h : cs = ConsoleState.absent
      ∨ ∃ v, cs = ConsoleState.withFile v ∧ v ≠ PyVal.pynone) :
    (rag_worker conv cs oc).2 = cs := by
  rcases h with h | ⟨v, rfl, hv⟩
  · subst h; rfl
  · simp [rag_worker, if_neg hv]

/-- Witness for C5 (amended) at a concrete input: saved external sink,
engine failure path. -/
theorem c5_console_restored_witness :
    (rag_worker convId (ConsoleState.withFile (PyVal.sink 0))
        (EngineOutcome.failure [] ['e'])).2 = ConsoleState.withFile (PyVal.sink 0) :=
  c5_console_restored convId _ _ (Or.inr ⟨PyVal.sink 0, rfl, by decide⟩)

/-- C6 counterexample: a single `write("\n")` consumes one complete
line terminator (the final buffer is empty, so the terminator count of
the input, 1, was fully consumed) but emits zero `log` events, because
the source only emits for lines whose `strip()` is non-empty — so the
claimed equality "events emitted before flush = terminators consumed"
fails at this input. -/
theorem c6_counterexample :
    ((writeMany convId ⟨[]⟩ [['\n']]).1).length = 0
    ∧ (writeMany convId ⟨[]⟩ [['\n']]).2.buffer = []
    ∧ ([['\n']] : List (List Char)).flatten.count '\n' = 1
    ∧ ((writeMany convId ⟨[]⟩ [['\n']]).1).length
        ≠ ([['\n']] : List (List Char)).flatten.count '\n'
            - (writeMany convId ⟨[]⟩ [['\n']]).2.buffer.count '\n' := by
  decide

/-- C6 (amended): for every sequence of `write()` calls from a fresh
capture, the number of `log` events emitted before `flush()` equals
the number of complete, consumed lines that are non-blank (blank lines
consume their terminator silently); the final buffer is exactly the
unterminated remainder of the concatenated input; and a single
`flush()` then emits exactly one additional event when that remainder
is non-blank and none otherwise. -/
theorem c6_log_event_count (conv : List Char → List Char) (ws : List (List Char)) :
    ((writeMany conv ⟨[]⟩ ws).1).length
      = (completeLines ws.flatten).1.countP (fun l => !(pyStrip l).isEmpty)
    ∧ (writeMany conv ⟨[]⟩ ws).2.buffer = (completeLines ws.flatten).2
    ∧ ((Capture.flush conv (writeMany conv ⟨[]⟩ ws).2).1).length
      = (if pyStrip (completeLines ws.flatten).2 = [] then 0 else 1) := by
  have hw := writeMany_eq conv ws ⟨[]⟩ rfl
  simp only [List.nil_append] at hw
  have hl := processBuffer_lines conv ws.flatten
  have hbuf : (writeMany conv ⟨[]⟩ ws).2.buffer = (completeLines ws.flatten).2 := by
    rw [hw]
    exact hl.2
  refine ⟨?_, hbuf, ?_⟩
  · rw [hw]
    show (processBuffer conv ws.flatten).1.length = _
    rw [hl.1, flatten_lineEvents_length]
  · unfold Capture.flush
    rw [hbuf]
    by_cases hb : pyStrip (completeLines ws.flatten).2 = [] <;> simp [hb]

/-- C7: flushing the capture twice in a row with no intervening write
makes the second `flush()` emit no events and leave the state
unchanged — after any first flush the buffer is blank (either cleared,
or untouched but already blank), so the second is a no-op. -/
theorem c7_flush_idempotent (conv : List Char → List Char) (st : Capture) :
    Capture.flush conv (Capture.flush conv st).2 = ([], (Capture.flush conv st).2) := by
  by_cases h : pyStrip st.buffer = []
  · simp [Capture.flush, h]
  · unfold Capture.flush
    rw [if_neg h]
    have h0 : pyStrip (Capture.mk []).buffer = [] := rfl
    rw [if_pos h0]

/-! ### The SSE generator loop (`generate_response_stream`) -/

/-- Joint state of one job's channel and dispatcher: the events the
worker has put so far (`pushed`, in put order, a history variable),
the FIFO `message_queue` contents, the `finished_signal` flag, the
events already yielded to the client (`forwarded`, in yield order),
and whether the generator loop has exited (`closed`). -/
structure DState where
  pushed : List Event
  queue : List Event
  signal : Bool
  forwarded : List Event
  closed : Bool
deriving DecidableEq

/-- The state at the start of a job: nothing produced, nothing
forwarded, loop running. -/
def initState : DState := ⟨[], [], false, [], false⟩

/-- Interleaved small steps of the worker side (arbitrary puts and
`finished_signal.set()`, which over-approximates any worker) and the
dispatcher's loop body from the source:

* `forward`: `msg = message_queue.get(timeout=0.1)` succeeded; the
  message is yielded immediately and the loop breaks exactly when
  `msg.get('type') == 'finished'`;
* `pollTimeout`: `get` timed out with the signal unset — the loop
  continues;
* `drainExit`: the `while not finished_signal.is_set() or not
  message_queue.empty()` condition is false (signal set, queue
  empty) — the loop exits without a further yield;
* `transportFail`: yielding raised (client disconnected) after the
  `get` had already popped the message — the loop breaks, the popped
  message is lost. -/
inductive DStep : DState → DState → Prop
  | pushEvent (s : DState) (e : Event) :
      DStep s ⟨s.pushed ++ [e], s.queue ++ [e], s.signal, s.forwarded, s.closed⟩
  | setSignal (s : DState) :
      DStep s ⟨s.pushed, s.queue, true, s.forwarded, s.closed⟩
  | forward (s : DState) (e : Event) (rest : List Event)
      (hc : s.closed = false) (hq : s.queue = e :: rest) :
      DStep s ⟨s.pushed, rest, s.signal, s.forwarded ++ [e], decide (e = Event.finished)⟩
  | pollTimeout (s : DState) (hc : s.closed = false) (hq : s.queue = [])
      (hs : s.signal = false) : DStep s s
  | drainExit (s : DState) (hc : s.closed = false) (hq : s.queue = [])
      (hs : s.signal = true) :
      DStep s ⟨s.pushed, s.queue, s.signal, s.forwarded, true⟩
  | transportFail (s : DState) (e : Event) (rest : List Event)
      (hc : s.closed = false) (hq : s.queue = e :: rest) :
      DStep s ⟨s.pushed, rest, s.signal, s.forwarded, true⟩

/-- States reachable from the start of a job by interleaved
worker/dispatcher steps. -/
inductive Reach : DState → Prop
  | init : Reach initState
  | step {s t : DState} : Reach s → DStep s t → Reach t

/-- Inductive invariant of the loop: while the loop runs the forwarded
events plus the queued events are exactly the produced events in
order; forwarded is always a prefix of produced; any `finished` among
the forwarded events is the last one; and the loop never runs past a
forwarded `finished`. -/
def DInv (s : DState) : Prop :=
  (s.closed = false → s.forwarded ++ s.queue = s.pushed)
  ∧ (∃ rest, s.forwarded ++ rest = s.pushed)
  ∧ (∀ m ∈ s.forwarded.dropLast, m ≠ Event.finished)
  ∧ (s.closed = false → Event.finished ∉ s.forwarded)

theorem dinv_init : DInv initState :=
  ⟨fun _ => rfl, ⟨[], rfl⟩, fun m hm => absurd hm (List.not_mem_nil m),
    fun _ => List.not_mem_nil Event.finished⟩

theorem dinv_step {s t : DState} (hs : DInv s) (hstep : DStep s t) : DInv t := by
  obtain ⟨h1, ⟨r, h2⟩, h3, h4⟩ := hs
  cases hstep with
  | pushEvent e =>
    refine ⟨fun hc => ?_, ⟨r ++ [e], ?_⟩, h3, h4⟩
    · rw [← List.append_assoc, h1 hc]
    · rw [← List.append_assoc, h2]
  | setSignal => exact ⟨h1, ⟨r, h2⟩, h3, h4⟩
  | forward e rest hc hq =>
    have hfq : s.forwarded ++ e :: rest = s.pushed := by
      rw [← h1 hc, hq]
    constructor
    · intro _
      rw [← hfq]
      simp
    constructor
    · exact ⟨rest, by rw [← hfq]; simp⟩
    constructor
    · intro m hm
      rw [List.dropLast_concat] at hm
      intro hfin
      subst hfin
      exact h4 hc hm
    · intro hopen
      simp only [decide_eq_false_iff_not] at hopen
      intro hmem
      rcases List.mem_append.mp hmem with hmem | hmem
      · exact h4 hc hmem
      · exact hopen (List.mem_singleton.mp hmem).symm
  | pollTimeout hc hq hs' => exact ⟨h1, ⟨r, h2⟩, h3, h4⟩
  | drainExit hc hq hs' =>
    exact ⟨fun hcl => Bool.noConfusion hcl, ⟨r, h2⟩, h3,
      fun hcl => Bool.noConfusion hcl⟩
  | transportFail e rest hc hq =>
    refine ⟨fun hcl => Bool.noConfusion hcl, ⟨e :: rest, ?_⟩, h3,
      fun hcl => Bool.noConfusion hcl⟩
    rw [← h1 hc, hq]

theorem dinv_reach {s : DState} (h : Reach s) : DInv s := by
  induction h with
  | init => exact dinv_init
  | step _ hstep ih => exact dinv_step ih hstep

/-- C8: in every reachable state of a job's stream, the forwarded
sequence is an order-preserving prefix of the produced sequence;
while the loop is still running nothing popped has been withheld (the
forwarded events plus the still-queued events are exactly the produced
events, so each popped event was yielded immediately, with no
batching); and once a `finished` event has been forwarded it is the
last forwarded event and the loop has exited. -/
theorem c8_dispatcher_order (s : DState) (h : Reach s) :
    (∃ rest, s.forwarded ++ rest = s.pushed)
    ∧ (s.closed = false → s.forwarded ++ s.queue = s.pushed)
    ∧ (∀ m ∈ s.forwarded.dropLast, m ≠ Event.finished)
    ∧ (Event.finished ∈ s.forwarded → s.closed = true) := by
  obtain ⟨h1, h2, h3, h4⟩ := dinv_reach h
  refine ⟨h2, h1, h3, fun hmem => ?_⟩
  by_contra hcl
  exact h4 (Bool.not_eq_true s.closed ▸ (by simpa using hcl)) hmem

/-- Witness for C8 at the initial state of a job. -/
theorem c8_dispatcher_order_witness :
    (∃ rest, initState.forwarded ++ rest = initState.pushed)
    ∧ (initState.closed = false → initState.forwarded ++ initState.queue = initState.pushed)
    ∧ (∀ m ∈ initState.forwarded.dropLast, m ≠ Event.finished)
    ∧ (Event.finished ∈ initState.forwarded → initState.closed = true) :=
  c8_dispatcher_order initState Reach.init

/-! ### The `/ask` handler `ask_question` -/

/-- Result of the `/ask` handler's synchronous part: an immediate
error `Response` with its HTTP status, or the streaming response,
which is the only constructor that carries a job — so a `reject`
result means no worker thread was started and no event stream was
opened. -/
inductive AskResult where
  | reject (status : Nat) (msg : String)
  | stream (question : String) (multiHop : Bool) (budget : String)
deriving DecidableEq

/-- `ask_question()`: reject with 403 unless the session carries a
Neo4j config and the connected flag (`"neo4j_config" not in session or
not session.get("neo4j_connected")`); read `question`,
`enable_multi_hop` (default `True`) and `search_budget` (default
`"Deeper"`) from the JSON body; reject with 400 when `question` is
absent or empty (`if not question_text`); otherwise return the
streaming response for the job. -/
def ask_question (hasConfig connected : Bool) (question : Option String)
    (enableMultiHop : Option Bool) (searchBudget : Option String) : AskResult :=
  if hasConfig = false ∨ connected = false then
    AskResult.reject 403 "Not connected to Neo4j. Please login."
  else
    let mh := enableMultiHop.getD true
    let sb := searchBudget.getD "Deeper"
    match question with
    | none => AskResult.reject 400 "No question provided."
    | some q =>
      if q = "" then AskResult.reject 400 "No question provided."
      else AskResult.stream q mh sb

/-- C9: a submission whose session is not authenticated against the
graph database, or whose `question` is missing or empty, is rejected
synchronously with a client-error status (4xx) — the `reject`
constructor, which starts no worker and opens no stream; and a
non-empty `question` from an authenticated session yields the
streaming job with `enable_multi_hop` defaulting to `true` and
`search_budget` defaulting to `"Deeper"` when those fields are
absent. -/
theorem c9_submission_validation (hasConfig connected : Bool) (question : Option String)
    (mh : Option Bool) (sb : Option String) :
    ((hasConfig = false ∨ connected = false ∨ question = none ∨ question = some "") →
      ∃ c m, ask_question hasConfig connected question mh sb = AskResult.reject c m
        ∧ 400 ≤ c ∧ c < 500)
    ∧ (∀ q, question = some q → q ≠ "" → hasConfig = true → connected = true →
        ask_question hasConfig connected question mh sb
          = AskResult.stream q (mh.getD true) (sb.getD "Deeper")) := by
  constructor
  · intro h
    by_cases hauth : hasConfig = false ∨ connected = false
    · exact ⟨403, "Not connected to Neo4j. Please login.",
        by simp [ask_question, hauth], by omega, by omega⟩
    · have hq : question = none ∨ question = some "" := by
        rcases h with h | h | h | h
        · exact absurd (Or.inl h) hauth
        · exact absurd (Or.inr h) hauth
        · exact Or.inl h
        · exact Or.inr h
      rcases hq with hq | hq
      · exact ⟨400, "No question provided.",
          by simp [ask_question, hauth, hq], by omega, by omega⟩
      · exact ⟨400, "No question provided.",
          by simp [ask_question, hauth, hq], by omega, by omega⟩
  · intro q hq hne hcfg hcon
    subst hq
    simp [ask_question, hcfg, hcon, hne]

/-- Witness for C9: authenticated session, non-empty question, both
optional fields absent. -/
theorem c9_submission_validation_witness :
    ask_question true true (some "What is X?") none none
      = AskResult.stream "What is X?" true "Deeper" :=
  (c9_submission_validation true true (some "What is X?") none none).2
    "What is X?" rfl (by decide) rfl rfl

/-! ### The `/upload_image` handler `upload_image` -/

/-- Result of the `/upload_image` handler: an error response with its
HTTP status, or the success JSON (HTTP 200 with `"success": True`)
carrying the two image URLs, the segmentation info and the
description. -/
inductive UploadResult where
  | err (status : Nat) (msg : String)
  | ok (original segmented segInfo description : String)
deriving DecidableEq

/-- The fixed fallback description substituted when
`describe_medical_image` reports failure. -/
def descFallback : String := "图像描述生成失败，但图像分割已完成。"

/-- `os.path.basename`: the part of the path after the last slash. -/
def baseName (p : String) : String :=
  String.mk (((p.toList.reverse).takeWhile (fun c => ¬ c = '/')).reverse)

/-- `filename.rsplit('.', 1)[1].lower()` guarded by `'.' in filename`:
the lower-cased text after the last dot, if any dot is present. -/
def lowerExt (fname : String) : Option String :=
  if fname.toList.contains '.' then
    some (String.mk ((((fname.toList.reverse).takeWhile (fun c => ¬ c = '.')).reverse).map
      Char.toLower))
  else none

/-- The handler's allowed image extensions. -/
def allowedExtensions : List String := ["png", "jpg", "jpeg", "gif", "bmp", "tiff"]

/-- The file-type guard `image_file.filename and '.' in
image_file.filename and image_file.filename.rsplit('.', 1)[1].lower()
in allowed_extensions`. -/
def allowedFile (fname : String) : Bool :=
  if fname = "" then false
  else
    match lowerExt fname with
    | none => false
    | some e => allowedExtensions.contains e

/-- `upload_image()` with the collaborator results supplied as inputs:
session auth as in `/ask`; the uploaded file's presence and filename;
`save_uploaded_image`'s result (`none` for a falsy path → 500);
`segment_image`'s segmented path (`none` for a falsy path → 500, with
the segmentation info in the message), original path and info; and
`describe_medical_image`'s `(success, description)` pair — on
description failure the description is replaced by the fixed fallback
text and the handler still returns the 200 success JSON. -/
def upload_image (hasConfig connected : Bool) (file : Option String)
    (savedPath : Option String) (segmentedPath : Option String)
    (originalPath segInfo : String) (descSuccess : Bool) (descText : String) :
    UploadResult :=
  if hasConfig = false ∨ connected = false then
    UploadResult.err 403 "Not connected to Neo4j. Please login."
  else
    match file with
    | none => UploadResult.err 400 "No image file uploaded."
    | some fname =>
      if fname = "" then UploadResult.err 400 "No image file selected."
      else if allowedFile fname = false then
        UploadResult.err 400
          "Unsupported file type. Please upload PNG, JPG, JPEG, GIF, BMP, or TIFF files."
      else
        match savedPath with
        | none => UploadResult.err 500 "Failed to save uploaded image."
        | some _ =>
          match segmentedPath with
          | none => UploadResult.err 500 ("Image segmentation failed: " ++ segInfo)
          | some sp =>
            let description := if descSuccess then descText else descFallback
            UploadResult.ok ("/uploads/" ++ baseName originalPath)
              ("/segmented/" ++ baseName sp) segInfo description

/-- C10: when the session is authenticated, the file is acceptable,
saving and segmentation succeed, but the image-description call
reports failure, the handler still returns the 200 success JSON
(`UploadResult.ok`, never `err`), with the description replaced by the
fixed fallback message — a description failure alone is never surfaced
as an error response. -/
theorem c10_description_fallback (fname savedPath sp originalPath segInfo descText : String)
    (hne : fname ≠ "") (hext : allowedFile fname = true) :
    upload_image true true (some fname) (some savedPath) (some sp)
        originalPath segInfo false descText
      = UploadResult.ok ("/uploads/" ++ baseName originalPath)
          ("/segmented/" ++ baseName sp) segInfo descFallback
    ∧ ∀ c m, upload_image true true (some fname) (some savedPath) (some sp)
        originalPath segInfo false descText ≠ UploadResult.err c m := by
  have hmain : upload_image true true (some fname) (some savedPath) (some sp)
      originalPath segInfo false descText
      = UploadResult.ok ("/uploads/" ++ baseName originalPath)
          ("/segmented/" ++ baseName sp) segInfo descFallback := by
    simp [upload_image, hne, hext]
  refine ⟨hmain, fun c m hcontra => ?_⟩
  rw [hmain] at hcontra
  exact UploadResult.noConfusion hcontra

/-- Witness for C10: a valid `a.png` upload whose description call
failed with some error text. -/
theorem c10_description_fallback_witness :
    upload_image true true (some "a.png") (some "static/uploads/a.png")
        (some "static/segmented/seg_a.png") "static/uploads/a.png" "3 masks"
        false "timeout"
      = UploadResult.ok ("/uploads/" ++ baseName "static/uploads/a.png")
          ("/segmented/" ++ baseName "static/segmented/seg_a.png") "3 masks" descFallback
    ∧ ∀ c m, upload_image true true (some "a.png") (some "static/uploads/a.png")
        (some "static/segmented/seg_a.png") "static/uploads/a.png" "3 masks"
        false "timeout" ≠ UploadResult.err c m :=
  c10_description_fallback "a.png" "static/uploads/a.png" "static/segmented/seg_a.png"
    "static/uploads/a.png" "3 masks" "timeout" (by decide) (by decide)
